import Mathlib

/-!
Verification of the `pyaml` processor (package `pyaml_processor`, file
`src/pyaml_processor/__init__.py`).  The embedding models a physical line as a
`List Char` without its trailing newline; the raw line handled by the Python
code is the content followed by `'\n'`.  The regular expressions of the source
are translated into executable matching functions with the same backtracking
semantics (greedy `(.*)` / `(.+)`, lazy `(\S+?)`, anchored `\s*$`).  Running
Python statements and expressions is delegated to an abstract engine, and the
YAML codec used by `dump` is an abstract codec, mirroring the collaborator
boundaries of the design.
-/

deriving instance DecidableEq for Except

namespace Pyaml

/-- Python `\s` on the ASCII range: the whitespace characters recognised by
the `re` module patterns used in the source. -/
def pySpace (c : Char) : Bool :=
  c == ' ' || c == '\t' || c == '\n' || c == '\r' || c == '\x0b' || c == '\x0c'

/-- A physical line, without its trailing newline. -/
abbrev Line := List Char

/-- All characters are whitespace (`\s*$` on a remainder). -/
def allSpace (l : List Char) : Bool := l.all pySpace

/-- Drop the maximal leading-whitespace run (`\s*` before a literal). -/
def stripWs (l : List Char) : List Char := l.dropWhile pySpace

/-- Match a literal tag at the front, returning the remainder. -/
def dropTag : List Char → List Char → Option (List Char)
  | [], r => some r
  | _ :: _, [] => none
  | t :: ts, c :: cs => if c = t then dropTag ts cs else none

/-- Greedy `(.*)` before a sub-matcher `m`: the latest start position at which
`m` succeeds wins, and the characters before it are the captured group. -/
def scanLongest {α : Type} (m : List Char → Option α) : List Char → Option (List Char × α)
  | [] => (m []).map (fun a => ([], a))
  | c :: cs =>
    match scanLongest m cs with
    | some (p, a) => some (c :: p, a)
    | none => (m (c :: cs)).map (fun a => ([], a))

/-- Greedy `(.+)tag`: split at the rightmost occurrence of `tag`, returning
the text before and after it. -/
def lastOcc (tag : List Char) : List Char → Option (List Char × List Char)
  | [] => none
  | c :: cs =>
    match lastOcc tag cs with
    | some (b, a) => some (c :: b, a)
    | none => (dropTag tag (c :: cs)).map (fun r => ([], r))

/-- `_re_comment = \s*#` tested with `match`: the stripped line starts with
the comment marker. -/
def isCommentLine (l : Line) : Bool :=
  match stripWs l with
  | '#' :: _ => true
  | _ => false

/-- The lazy `(\S+?)@@\s*$` part of `_re_include`: accumulate non-whitespace
filename characters, at each point preferring to stop as soon as the closing
`@@` followed only by whitespace is present. -/
def inclFname : List Char → List Char → Option (List Char)
  | _, [] => none
  | acc, c :: cs =>
    match acc, dropTag ['@', '@'] (c :: cs) with
    | a :: as, some rest =>
      if allSpace rest then some ((a :: as).reverse)
      else if pySpace c then none else inclFname (c :: acc) cs
    | _, _ => if pySpace c then none else inclFname (c :: acc) cs

/-- The `@@\s?include\s+(\S+?)@@\s*$` tail of `_re_include`, returning the
captured filename. -/
def inclTail (r : List Char) : Option (List Char) := do
  let r1 ← dropTag ['@', '@'] r
  let r2 := match r1 with
    | c :: cs => if pySpace c then cs else r1
    | [] => r1
  let r3 ← dropTag ['i', 'n', 'c', 'l', 'u', 'd', 'e'] r2
  match r3 with
  | c :: cs => if pySpace c then inclFname [] (cs.dropWhile pySpace) else none
  | [] => none

/-- `_re_include.match(line)`: group 1 is the text before the directive, group
2 the filename.  The closing `@@` is part of the pattern. -/
def parseIncludeLine (l : Line) : Option (List Char × List Char) :=
  scanLongest inclTail l

/-- The `@%(.+)%@(.*)` tail of `_re_eval_one_line`: expression and trailing
text. -/
def evalOneTail (r : List Char) : Option (List Char × List Char) := do
  let r1 ← dropTag ['@', '%'] r
  match lastOcc ['%', '@'] r1 with
  | some (e, s) => if e = [] then none else some (e, s)
  | none => none

/-- `_re_eval_one_line.match(line)`: (text before, expression, text after). -/
def parseEvalOne (l : Line) : Option (List Char × List Char × List Char) :=
  (scanLongest evalOneTail l).map (fun x => (x.1, x.2.1, x.2.2))

/-- The `@%(.+)` tail of `_re_eval_open`. -/
def evalOpenTail (r : List Char) : Option (List Char) := do
  let r1 ← dropTag ['@', '%'] r
  match r1 with
  | [] => none
  | _ => some r1

/-- `_re_eval_open.match(line)`: (text before the open marker, start of the
expression). -/
def parseEvalOpen (l : Line) : Option (List Char × List Char) :=
  scanLongest evalOpenTail l

/-- The `%@\s*$` tail of `_re_eval_close`. -/
def evalCloseTail (r : List Char) : Option Unit := do
  let r1 ← dropTag ['%', '@'] r
  if allSpace r1 then some () else none

/-- `_re_eval_close.match(line)`: group 1, the text before the close marker,
which must be the last non-whitespace thing on the line. -/
def parseEvalClose (l : Line) : Option (List Char) :=
  (scanLongest evalCloseTail l).map (fun x => x.1)

/-- The `\+@\s*$` tail of `_re_exec_one_line`. -/
def execOneTail (r : List Char) : Option Unit := do
  let r1 ← dropTag ['+', '@'] r
  if allSpace r1 then some () else none

/-- `_re_exec_one_line.match(line)`: the single-line `@+ ... +@` form; the
captured group is the statement text between the tags. -/
def parseExecOne (l : Line) : Option (List Char) := do
  let r ← dropTag ['@', '+'] (stripWs l)
  match scanLongest execOneTail r with
  | some (e, _) => if e = [] then none else some e
  | none => none

/-- `_re_exec_open.match(line)`: the line is `\s*@+\s*$`. -/
def isExecOpen (l : Line) : Bool :=
  match dropTag ['@', '+'] (stripWs l) with
  | some r => allSpace r
  | none => false

/-- `_re_exec_close.match(line)`: the line is `\s*+@\s*$`. -/
def isExecClose (l : Line) : Bool :=
  match dropTag ['+', '@'] (stripWs l) with
  | some r => allSpace r
  | none => false

/-- Closing matcher handed to `_grab_block` for exec blocks: group 1 of
`_re_exec_close` is the empty capture. -/
def execCloseG (l : Line) : Option (List Char) :=
  if isExecClose l then some [] else none

/-- `LineType` of the source. -/
inductive LineType
  | regular
  | comment
  | exec
  | eval
deriving DecidableEq

/-- The `Token` namedtuple: (line_type, text before the directive, body,
text after the directive).  The `None` postfix of regular tokens is modelled
as the never-used empty list. -/
structure Token where
  kind : LineType
  pre : List Char
  body : List Char
  post : List Char
deriving DecidableEq

/-- `Pyaml._grab_block`: pull raw lines from the active stream until one
matches the closing pattern; the closing line contributes its group 1.
Returns the token plus the unconsumed remainder of the stream, or `none` when
the stream is exhausted first. -/
def grabBlock (cm : Line → Option (List Char)) (k : LineType) (p : List Char) :
    List Char → List Line → Option (Token × List Line)
  | _, [] => none
  | b, l :: ls =>
    match cm l with
    | some g => some (Token.mk k p (b ++ g) [], ls)
    | none => grabBlock cm k p (b ++ l ++ ['\n']) ls

/-- `Pyaml._indent_tokens`: prepend the include directive's own text before
the first non-exec token and the indent string before every later non-exec
token; exec tokens are skipped. -/
def indentTokens : List Token → List Char → List Char → List Token
  | [], _, _ => []
  | t :: ts, p, ind =>
    if t.kind = LineType.exec then t :: indentTokens ts p ind
    else Token.mk t.kind (p ++ t.pre) t.body t.post :: indentTokens ts ind ind

/-- Exceptions escaping `_parse_stream`: the `FileNotFoundError` raised by
`open` in `_parse_include`, and exhaustion of the modelling fuel that bounds
include recursion (Python would recurse without bound there). -/
inductive PErr
  | inclNotFound (fname : List Char)
  | outOfFuel
deriving DecidableEq

/-- `Pyaml._parse_stream` together with `_parse_line` and the individual
parsers, in their registered order (comment, include, exec, eval, regular).
An include opens the named file through `fs`, parses it recursively, indents
its tokens and splices them into the surrounding token list.  When a block
open line reaches the end of the stream without a closing line, `_grab_block`
returns `None`, every remaining parser declines the open line, and it becomes
a regular token while the body lines stay consumed. -/
def parseStream (fs : List Char → Option (List Line)) : Nat → List Line → Except PErr (List Token)
  | _, [] => Except.ok []
  | 0, _ :: _ => Except.error PErr.outOfFuel
  | fuel + 1, l :: ls =>
    if isCommentLine l then
      (parseStream fs fuel ls).map (fun ts => Token.mk LineType.comment [] (l ++ ['\n']) [] :: ts)
    else
      match parseIncludeLine l with
      | some (p, fname) =>
        match fs fname with
        | none => Except.error (PErr.inclNotFound fname)
        | some incLines => do
          let its ← parseStream fs fuel incLines
          let ts ← parseStream fs fuel ls
          pure (indentTokens its p (List.replicate p.length ' ') ++ ts)
      | none =>
        match parseExecOne l with
        | some body =>
          (parseStream fs fuel ls).map (fun ts => Token.mk LineType.exec [] body [] :: ts)
        | none =>
          if isExecOpen l then
            match grabBlock execCloseG LineType.exec [] [] ls with
            | some (t, rest) => (parseStream fs fuel rest).map (fun ts => t :: ts)
            | none => Except.ok [Token.mk LineType.regular [] (l ++ ['\n']) []]
          else
            match parseEvalOne l with
            | some (p, e, s) =>
              (parseStream fs fuel ls).map (fun ts => Token.mk LineType.eval p e s :: ts)
            | none =>
              match parseEvalOpen l with
              | some (p, e) =>
                match grabBlock parseEvalClose LineType.eval p e ls with
                | some (t, rest) => (parseStream fs fuel rest).map (fun ts => t :: ts)
                | none => Except.ok [Token.mk LineType.regular [] (l ++ ['\n']) []]
              | none =>
                (parseStream fs fuel ls).map
                  (fun ts => Token.mk LineType.regular [] (l ++ ['\n']) [] :: ts)

/-- A Python value as seen by `_process_eval`: a string, `None`, or any other
object together with its `__repr__` text. -/
inductive PyVal
  | vStr (s : List Char)
  | vNone
  | other (rep : List Char)
deriving DecidableEq

/-- The delegated execution capability: `exec(textwrap.dedent(body), env)`
for statement blocks, and `eval(expr, env)` under `CaptureOutput` for
expressions, the latter returning the value, the captured stdout text and the
updated namespace. -/
structure PyEngine (Env : Type) where
  execStmt : List Char → Env → Env
  evalExpr : List Char → Env → PyVal × List Char × Env

/-- The two coercions at the top of `_process_eval`: `None` becomes the empty
string first, then any non-string value is replaced by its `__repr__`. -/
def embedVal : PyVal → List Char
  | PyVal.vStr s => s
  | PyVal.vNone => []
  | PyVal.other rep => rep

/-- `str.replace("\n", r)`. -/
def replaceNl : List Char → List Char → List Char
  | [], _ => []
  | c :: cs, r => if c = '\n' then r ++ replaceNl cs r else c :: replaceNl cs r

/-- `Pyaml._process_eval`: evaluate the expression capturing stdout, embed the
value (`None` as empty, non-strings by `__repr__`), prepend any captured
output, rewrite every newline of the embedded text to a newline plus as many
spaces as the token's prefix length, and emit prefix, text, postfix, newline. -/
def processEval {Env : Type} (E : PyEngine Env) (t : Token) (env : Env) : List Char × Env :=
  let r := E.evalExpr t.body env
  let evaled := embedVal r.1
  let evaled := if r.2.1 ≠ [] then r.2.1 ++ evaled else evaled
  let ind := '\n' :: List.replicate t.pre.length ' '
  (t.pre ++ replaceNl evaled ind ++ t.post ++ ['\n'], r.2.2)

/-- `Pyaml._process_token`: regular and comment tokens emit prefix plus body,
exec tokens run their body against the shared namespace and emit only their
prefix, eval tokens go through `_process_eval`. -/
def processToken {Env : Type} (E : PyEngine Env) (t : Token) (env : Env) : List Char × Env :=
  match t.kind with
  | LineType.regular => (t.pre ++ t.body, env)
  | LineType.comment => (t.pre ++ t.body, env)
  | LineType.exec => (t.pre, E.execStmt t.body env)
  | LineType.eval => processEval E t env

/-- `Pyaml._process_tokens` with `"".join`: process the tokens in order,
threading the single shared namespace through every step. -/
def processTokens {Env : Type} (E : PyEngine Env) : List Token → Env → List Char × Env
  | [], env => ([], env)
  | t :: ts, env =>
    let r := processToken E t env
    let rs := processTokens E ts r.2
    (r.1 ++ rs.1, rs.2)

/-- Location-carrying parse failure of the YAML codec, as read off
`exc.problem_mark` in `Pyaml.dump`. -/
structure YErr where
  line : Nat
  col : Nat
  msg : List Char
deriving DecidableEq

/-- The structured-data codec collaborator (`yaml.safe_load` and
`yaml.dump`): parsing either yields data or a failure with its location. -/
structure Codec (Data : Type) where
  parse : List Char → Except YErr Data
  serialize : Data → List Char

/-- Greedy `\s+\n` match at the start of a list: position of the last newline
inside the maximal whitespace prefix. -/
def lastNlPos : List Char → Option Nat
  | [] => none
  | c :: r =>
    if pySpace c then
      match lastNlPos r with
      | some j => some (j + 1)
      | none => if c = '\n' then some 0 else none
    else none

/-- Number of characters consumed by the greedy `\s+\n` after a leading
newline; the `\s+` part must be nonempty, so the matched newline must sit at
index one or later. -/
def matchLen (l : List Char) : Option Nat :=
  match lastNlPos l with
  | some (j + 1) => some (j + 2)
  | some 0 => none
  | none => none

/-- The scan of `re.sub` bounded by a step budget that always suffices when
it is at least the length of the text: each step either emits one character
or replaces one whole match. -/
def collapseBlankAux : Nat → List Char → List Char
  | 0, l => l
  | _ + 1, [] => []
  | n + 1, c :: rest =>
    if c = '\n' then
      match matchLen rest with
      | some k => '\n' :: collapseBlankAux n (rest.drop k)
      | none => '\n' :: collapseBlankAux n rest
    else c :: collapseBlankAux n rest

/-- `re.sub(r"\n\s+\n", "\n", lines)` from `_pyaml`: leftmost non-overlapping
greedy matches of a newline, a nonempty whitespace run and a newline are each
replaced by a single newline. -/
def collapseBlank (l : List Char) : List Char := collapseBlankAux l.length l

/-- Errors surfaced through `processor.last_error`. -/
inductive PyamlErr
  | parseErr (e : PErr)
  | yamlErr (e : YErr)
deriving DecidableEq

/-- `Pyaml._process` via `load`: parse the stream into tokens and process
them; an exception during parsing is caught, recorded as the error and turns
the text into the empty string before any code has run. -/
def pyamlProcess {Env : Type} (E : PyEngine Env) (fs : List Char → Option (List Line))
    (fuel : Nat) (lines : List Line) (env : Env) : List Char × Option PErr × Env :=
  match parseStream fs fuel lines with
  | Except.error e => ([], some e, env)
  | Except.ok ts =>
    let r := processTokens E ts env
    (r.1, none, r.2)

/-- `_pyaml`: load, collapse whitespace-only interior lines, and when no
error occurred and reformatting is requested run `dump`, which parses and
re-serializes the assembled text (note: `dump` reads `self._lines`, the text
before the whitespace collapse) and on failure records the location-carrying
error and yields the empty string. -/
def pyamlRun {Env Data : Type} (E : PyEngine Env) (C : Codec Data)
    (fs : List Char → Option (List Line)) (fuel : Nat) (lines : List Line)
    (reformat : Bool) (env : Env) : List Char × Option PyamlErr :=
  let r := pyamlProcess E fs fuel lines env
  match r.2.1 with
  | some e => (collapseBlank r.1, some (PyamlErr.parseErr e))
  | none =>
    if reformat then
      match C.parse r.1 with
      | Except.ok d => (C.serialize d, none)
      | Except.error e => ([], some (PyamlErr.yamlErr e))
    else (collapseBlank r.1, none)

/-- Split raw text into the lines an iterated Python stream yields, without
their trailing newlines. -/
def splitNlAux : List Char → List Char → List Line
  | cur, [] => [cur.reverse]
  | cur, c :: cs => if c = '\n' then cur.reverse :: splitNlAux [] cs else splitNlAux (c :: cur) cs

/-- Line splitting for the public entry points; newline-terminated text does
not produce a trailing empty line. -/
def splitNl (l : List Char) : List Line :=
  match (splitNlAux [] l).reverse with
  | [] :: rest => rest.reverse
  | ps => ps.reverse

/-- `pyaml_string` (and `pyaml_file` after reading the file): run the
processor over the split input. -/
def pyamlString {Env Data : Type} (E : PyEngine Env) (C : Codec Data)
    (fs : List Char → Option (List Line)) (fuel : Nat) (input : List Char)
    (reformat : Bool) (env : Env) : List Char × Option PyamlErr :=
  pyamlRun E C fs fuel (splitNl input) reformat env

/-! Spec-side definitions, written from the specification's words, used to
compare the code's behaviour against the specified one. -/

/-- Canonical display text of a Python value: its `__repr__`. -/
def pyReprOfVal : PyVal → List Char
  | PyVal.vNone => ['N', 'o', 'n', 'e']
  | PyVal.vStr s => s
  | PyVal.other rep => rep

/-- Spec-side reflow of an eval directive, exactly as the claim states it: a
textual value verbatim, any non-textual value by its canonical display text,
captured output prepended, every newline rewritten to a newline plus
prefix-length spaces, line assembled as prefix, text, suffix, newline. -/
def specEvalLineStrict (p s : List Char) (v : PyVal) (capt : List Char) : List Char :=
  let emb := match v with
    | PyVal.vStr t => t
    | v => pyReprOfVal v
  let emb := capt ++ emb
  p ++ replaceNl emb ('\n' :: List.replicate p.length ' ') ++ s ++ ['\n']

/-- Spec-side reflow of an eval directive, amended for the code's `None`
handling: an evaluation result of `None` is embedded as empty text; strings
are embedded verbatim and any other value by its canonical display text. -/
def specEvalLine (p s : List Char) (v : PyVal) (capt : List Char) : List Char :=
  let emb := match v with
    | PyVal.vStr t => t
    | PyVal.vNone => []
    | PyVal.other rep => rep
  let emb := capt ++ emb
  p ++ replaceNl emb ('\n' :: List.replicate p.length ' ') ++ s ++ ['\n']

/-- A run of whitespace characters containing at least one character and
terminated by a newline starts the list; this is a `\s+\n` match. -/
def startsWsNl : List Char → Bool
  | [] => false
  | c :: r => pySpace c && (r.head? == some '\n' || startsWsNl r)

/-- The text contains a newline, a nonempty whitespace run and a newline:
an occurrence of the `\n\s+\n` pattern. -/
def hasBlank : List Char → Bool
  | [] => false
  | c :: r => (c == '\n' && startsWsNl r) || hasBlank r

/-- The maximal leading whitespace run contains no newline. -/
def noNlWsPre : List Char → Bool
  | [] => true
  | c :: r => if pySpace c then (c != '\n') && noNlWsPre r else true

/-- Some line of the text consists solely of whitespace and is nonempty. -/
def hasWsOnlyLine (l : List Char) : Bool :=
  (splitNlAux [] l).any (fun p => !p.isEmpty && allSpace p)

/-! Shared concrete instances used by witnesses and counterexamples. -/

/-- An engine whose expressions always evaluate to the empty string with no
captured output and no namespace effect. -/
def engId : PyEngine Unit := ⟨fun _ env => env, fun _ env => (PyVal.vStr [], [], env)⟩

/-- An engine whose expressions always evaluate to `None`. -/
def engNone : PyEngine Unit := ⟨fun _ env => env, fun _ env => (PyVal.vNone, [], env)⟩

/-- An engine whose expressions evaluate to the two-line string "x\ny" while
printing the captured line "o\n". -/
def engCap : PyEngine Unit :=
  ⟨fun _ env => env, fun _ env => (PyVal.vStr ['x', '\n', 'y'], ['o', '\n'], env)⟩

/-- A codec accepting every text as the trivial datum and serializing it to
the single character d. -/
def codecId : Codec Unit := ⟨fun _ => Except.ok (), fun _ => ['d']⟩

/-- An empty file system: every include target fails to open. -/
def fsEmpty : List Char → Option (List Line) := fun _ => none

/-! Claim theorems. -/

/-- C1 (counterexample): the claim as stated fails on an expression that
evaluates to `None`.  The canonical display text of `None` is the string
None, but `_process_eval` turns `None` into the empty string before the
string test, so with empty prefix and suffix the emitted line is a bare
newline rather than the reflowed display text. -/
theorem C1_cex :
    (processToken engNone (Token.mk LineType.eval [] ['x'] []) ()).1 = ['\n'] ∧
    (processToken engNone (Token.mk LineType.eval [] ['x'] []) ()).1 ≠
      specEvalLineStrict [] [] PyVal.vNone [] := by
  constructor
  · rfl
  · decide

/-- C1 (amended): for every eval token the reflow engine emits exactly the
line described by the specification with one amendment: an evaluation result
of `None` is embedded as empty text (all other non-textual results keep
their canonical display text).  Captured incidental output is prepended
before reflowing, so its internal line breaks are also rewritten to a line
break plus prefix-length spaces, and the namespace returned by the evaluator
is threaded onward. -/
theorem C1_eval_reflow {Env : Type} (E : PyEngine Env) (t : Token) (env : Env)
    (h : t.kind = LineType.eval) :
    processToken E t env =
      (specEvalLine t.pre t.post (E.evalExpr t.body env).1 (E.evalExpr t.body env).2.1,
       (E.evalExpr t.body env).2.2) := by
  rcases hE : E.evalExpr t.body env with ⟨v, cap, env2⟩
  cases v <;> cases cap <;>
    simp [processToken, h, processEval, specEvalLine, embedVal, hE]

/-- C1 (witness): the reflow equation evaluated at a concrete eval token
whose expression yields the two-line string "x\ny" and captured output
"o\n". -/
theorem C1_eval_reflow_witness :
    (Token.mk LineType.eval [' ', ' '] ['e'] ['#']).kind = LineType.eval ∧
    processToken engCap (Token.mk LineType.eval [' ', ' '] ['e'] ['#']) () =
      (specEvalLine [' ', ' '] ['#']
        (engCap.evalExpr ['e'] ()).1 (engCap.evalExpr ['e'] ()).2.1,
       (engCap.evalExpr ['e'] ()).2.2) :=
  ⟨rfl, C1_eval_reflow engCap (Token.mk LineType.eval [' ', ' '] ['e'] ['#']) () rfl⟩

/-- C3 (code bug, evaluation at the failing input): an exec block is opened
by the line consisting of the open marker and never closed before the stream
ends.  The specification demands a fatal Unterminated-Block error and no
usable text, but `_grab_block` returns `None`, `_parse_line` then classifies
the open line as regular, the swallowed body lines are dropped, and the run
returns the open line as text with no error at all. -/
theorem C3_unterminated_block :
    pyamlRun engId codecId fsEmpty 2 ["@+".toList, "x = 1".toList] false () =
      ("@+\n".toList, none) := by decide

/-- C4: a line classified as an include directive whose named file cannot be
opened makes `_parse_stream` raise, the failure is never recovered locally,
the whole run records the Include-Not-Found error, and the returned text is
empty. -/
theorem C4_include_not_found {Env Data : Type} (E : PyEngine Env) (C : Codec Data)
    (fs : List Char → Option (List Line)) (fuel : Nat) (l : Line) (ls : List Line)
    (reformat : Bool) (env : Env) (p fname : List Char)
    (h1 : isCommentLine l = false) (h2 : parseIncludeLine l = some (p, fname))
    (h3 : fs fname = none) :
    parseStream fs (fuel + 1) (l :: ls) = Except.error (PErr.inclNotFound fname) ∧
    pyamlRun E C fs (fuel + 1) (l :: ls) reformat env =
      ([], some (PyamlErr.parseErr (PErr.inclNotFound fname))) := by
  have hp : parseStream fs (fuel + 1) (l :: ls) = Except.error (PErr.inclNotFound fname) := by
    simp [parseStream, h1, h2, h3]
  refine ⟨hp, ?_⟩
  simp [pyamlRun, pyamlProcess, hp, collapseBlank, collapseBlankAux]

/-- C4 (witness): the failure evaluated at a concrete include directive over
the empty file system. -/
theorem C4_include_not_found_witness :
    isCommentLine ("a: @@include nope.yaml@@".toList) = false ∧
    parseIncludeLine ("a: @@include nope.yaml@@".toList) =
      some ("a: ".toList, "nope.yaml".toList) ∧
    fsEmpty ("nope.yaml".toList) = none ∧
    (parseStream fsEmpty 1 ["a: @@include nope.yaml@@".toList] =
        Except.error (PErr.inclNotFound ("nope.yaml".toList)) ∧
      pyamlRun engId codecId fsEmpty 1 ["a: @@include nope.yaml@@".toList] true () =
        ([], some (PyamlErr.parseErr (PErr.inclNotFound ("nope.yaml".toList))))) :=
  ⟨by decide, by decide, rfl,
   C4_include_not_found engId codecId fsEmpty 0 ("a: @@include nope.yaml@@".toList) [] true ()
     ("a: ".toList) ("nope.yaml".toList) (by decide) (by decide) rfl⟩

/-- C5: with validation enabled and a clean load, the run hands the
assembled text to the codec: a parse failure yields empty text plus the
location-carrying error, and a successful parse yields the canonically
re-serialized text with no error. -/
theorem C5_validator {Env Data : Type} (E : PyEngine Env) (C : Codec Data)
    (fs : List Char → Option (List Line)) (fuel : Nat) (lines : List Line) (env : Env)
    (h : (pyamlProcess E fs fuel lines env).2.1 = none) :
    pyamlRun E C fs fuel lines true env =
      match C.parse (pyamlProcess E fs fuel lines env).1 with
      | Except.ok d => (C.serialize d, none)
      | Except.error e => ([], some (PyamlErr.yamlErr e)) := by
  cases hc : C.parse (pyamlProcess E fs fuel lines env).1 <;>
    simp [pyamlRun, h, hc]

/-- C5 (witness): the validator equation at a concrete clean run with the
trivial codec. -/
theorem C5_validator_witness :
    (pyamlProcess engId fsEmpty 1 ["a: 1".toList] ()).2.1 = none ∧
    pyamlRun engId codecId fsEmpty 1 ["a: 1".toList] true () =
      match codecId.parse (pyamlProcess engId fsEmpty 1 ["a: 1".toList] ()).1 with
      | Except.ok d => (codecId.serialize d, none)
      | Except.error e => ([], some (PyamlErr.yamlErr e)) :=
  ⟨by decide, C5_validator engId codecId fsEmpty 1 ["a: 1".toList] () (by decide)⟩

/-- C8: a line whose whitespace-stripped form starts with the comment marker
is classified as a comment token no matter what other markers appear later
on it — the comment parser is registered first — and processing that token
emits the raw line verbatim without touching the namespace. -/
theorem C8_comment_precedence {Env : Type} (E : PyEngine Env)
    (fs : List Char → Option (List Line)) (fuel : Nat) (l : Line) (ls : List Line) (env : Env)
    (h : isCommentLine l = true) :
    parseStream fs (fuel + 1) (l :: ls) =
      (parseStream fs fuel ls).map
        (fun ts => Token.mk LineType.comment [] (l ++ ['\n']) [] :: ts) ∧
    processToken E (Token.mk LineType.comment [] (l ++ ['\n']) []) env = (l ++ ['\n'], env) := by
  constructor
  · simp [parseStream, h]
  · simp [processToken]

/-- C8 (witness): a comment line that also contains include, exec and eval
markers is still a comment and is passed through verbatim. -/
theorem C8_comment_precedence_witness :
    isCommentLine ("  # x @@include f@@ @+ @%1%@".toList) = true ∧
    (parseStream fsEmpty 1 ["  # x @@include f@@ @+ @%1%@".toList] =
        (parseStream fsEmpty 0 []).map
          (fun ts =>
            Token.mk LineType.comment [] ("  # x @@include f@@ @+ @%1%@".toList ++ ['\n']) []
              :: ts) ∧
      processToken engId
          (Token.mk LineType.comment [] ("  # x @@include f@@ @+ @%1%@".toList ++ ['\n']) []) () =
        ("  # x @@include f@@ @+ @%1%@".toList ++ ['\n'], ())) :=
  ⟨by decide,
   C8_comment_precedence engId fsEmpty 0 ("  # x @@include f@@ @+ @%1%@".toList) [] ()
     (by decide)⟩

/-- C6 (counterexample): the line a: @%1+ carries an eval open marker and no
close marker.  The claim says its Eval token's expression is exactly 1+ (to
end of line) and that no further line is consumed, but the classifier runs
`_grab_block`, consumes the following line 1%@, and produces a single Eval
token with expression 1+1. -/
theorem C6_cex :
    parseStream fsEmpty 2 ["a: @%1+".toList, "1%@".toList] =
      Except.ok [Token.mk LineType.eval ("a: ".toList) ("1+1".toList) []] ∧
    ("1+1".toList : List Char) ≠ "1+".toList := by
  exact ⟨by decide, by decide⟩

/-- C6 (amended): a line with an eval open marker and expression text but no
close marker starts multi-line eval capture: subsequent raw lines are
consumed until one matches the eval close pattern and contribute to a single
Eval token's expression; if the stream is exhausted first, the open line is
classified as a regular line and the consumed lines stay swallowed. -/
theorem C6_eval_block (fs : List Char → Option (List Line)) (fuel : Nat)
    (l : Line) (ls : List Line) (p e : List Char)
    (h1 : isCommentLine l = false) (h2 : parseIncludeLine l = none)
    (h3 : parseExecOne l = none) (h4 : isExecOpen l = false)
    (h5 : parseEvalOne l = none) (h6 : parseEvalOpen l = some (p, e)) :
    parseStream fs (fuel + 1) (l :: ls) =
      match grabBlock parseEvalClose LineType.eval p e ls with
      | some (t, rest) => (parseStream fs fuel rest).map (fun ts => t :: ts)
      | none => Except.ok [Token.mk LineType.regular [] (l ++ ['\n']) []] := by
  simp [parseStream, h1, h2, h3, h4, h5, h6]

/-- C6 (witness): the capture behaviour at the concrete open line a: @%1+
followed by the closing line 1%@. -/
theorem C6_eval_block_witness :
    (isCommentLine ("a: @%1+".toList) = false ∧
      parseIncludeLine ("a: @%1+".toList) = none ∧
      parseExecOne ("a: @%1+".toList) = none ∧
      isExecOpen ("a: @%1+".toList) = false ∧
      parseEvalOne ("a: @%1+".toList) = none ∧
      parseEvalOpen ("a: @%1+".toList) = some ("a: ".toList, "1+".toList)) ∧
    parseStream fsEmpty 1 ["a: @%1+".toList, "1%@".toList] =
      match grabBlock parseEvalClose LineType.eval ("a: ".toList) ("1+".toList)
          ["1%@".toList] with
      | some (t, rest) => (parseStream fsEmpty 0 rest).map (fun ts => t :: ts)
      | none => Except.ok [Token.mk LineType.regular [] ("a: @%1+".toList ++ ['\n']) []] :=
  ⟨⟨by decide, by decide, by decide, by decide, by decide, by decide⟩,
   C6_eval_block fsEmpty 0 ("a: @%1+".toList) ["1%@".toList] ("a: ".toList) ("1+".toList)
     (by decide) (by decide) (by decide) (by decide) (by decide) (by decide)⟩

/-- C2 (counterexample): `_indent_tokens` re-indents comment tokens.  A
comment line that is the second line of an included expansion receives the
indent string, so its emitted text is the indented line, not the verbatim
line the claim promises. -/
theorem C2_cex :
    indentTokens
        [Token.mk LineType.regular [] ("x: 1\n".toList) [],
         Token.mk LineType.comment [] ("# c\n".toList) []]
        ("  ".toList) ("  ".toList) =
      [Token.mk LineType.regular ("  ".toList) ("x: 1\n".toList) [],
       Token.mk LineType.comment ("  ".toList) ("# c\n".toList) []] ∧
    (processToken engId (Token.mk LineType.comment ("  ".toList) ("# c\n".toList) []) ()).1 ≠
      "# c\n".toList := by
  exact ⟨by decide, by decide⟩

/-- Helper: re-indentation keeps the number of tokens. -/
theorem indentTokens_length (ts : List Token) (p ind : List Char) :
    (indentTokens ts p ind).length = ts.length := by
  induction ts generalizing p with
  | nil => rfl
  | cons t ts ih =>
    by_cases h : t.kind = LineType.exec <;> simp [indentTokens, h, ih]

/-- C2 (amended): position-by-position description of `_indent_tokens`: an
exec token is left untouched; the first non-exec token receives the include
directive's own line text (placing the first produced line at the
directive's column); every later non-exec token — comment tokens included —
receives the indent string of prefix-length spaces. -/
theorem C2_indent_rule (ts : List Token) (p ind : List Char) (i : Nat)
    (h : i < ts.length) :
    (indentTokens ts p ind).getD i (Token.mk LineType.regular [] [] []) =
      (fun t =>
        if t.kind = LineType.exec then t
        else if (ts.take i).countP (fun u => u.kind != LineType.exec) = 0 then
          Token.mk t.kind (p ++ t.pre) t.body t.post
        else Token.mk t.kind (ind ++ t.pre) t.body t.post)
        (ts.getD i (Token.mk LineType.regular [] [] [])) := by
  induction ts generalizing p i with
  | nil => simp at h
  | cons t0 ts ih =>
    cases i with
    | zero =>
      by_cases h0 : t0.kind = LineType.exec <;> simp [indentTokens, h0]
    | succ j =>
      have hj : j < ts.length := by simpa using h
      by_cases h0 : t0.kind = LineType.exec
      · rw [show indentTokens (t0 :: ts) p ind = t0 :: indentTokens ts p ind from by
            simp [indentTokens, h0],
          List.getD_cons_succ, List.getD_cons_succ, ih p j hj]
        simp [List.take_succ_cons, List.countP_cons, h0]
      · rw [show indentTokens (t0 :: ts) p ind =
              Token.mk t0.kind (p ++ t0.pre) t0.body t0.post :: indentTokens ts ind ind from by
            simp [indentTokens, h0],
          List.getD_cons_succ, List.getD_cons_succ, ih ind j hj]
        generalize ts.getD j (Token.mk LineType.regular [] [] []) = x
        by_cases hk : x.kind = LineType.exec
        · simp [hk]
        · simp [hk, h0]

/-- C2 (witness): the rule evaluated at index one of a list whose first
token is an exec block, showing the directive text lands on the first
non-exec token. -/
theorem C2_indent_rule_witness :
    1 < ([Token.mk LineType.exec [] ("x=1\n".toList) [],
          Token.mk LineType.regular [] ("a: 1\n".toList) []] : List Token).length ∧
    (indentTokens
        [Token.mk LineType.exec [] ("x=1\n".toList) [],
         Token.mk LineType.regular [] ("a: 1\n".toList) []]
        ("- ".toList) ("  ".toList)).getD 1 (Token.mk LineType.regular [] [] []) =
      (fun t =>
        if t.kind = LineType.exec then t
        else if (([Token.mk LineType.exec [] ("x=1\n".toList) [],
                   Token.mk LineType.regular [] ("a: 1\n".toList) []] : List Token).take 1).countP
            (fun u => u.kind != LineType.exec) = 0 then
          Token.mk t.kind ("- ".toList ++ t.pre) t.body t.post
        else Token.mk t.kind ("  ".toList ++ t.pre) t.body t.post)
        (([Token.mk LineType.exec [] ("x=1\n".toList) [],
           Token.mk LineType.regular [] ("a: 1\n".toList) []] : List Token).getD 1
          (Token.mk LineType.regular [] [] [])) :=
  ⟨by decide,
   C2_indent_rule
     [Token.mk LineType.exec [] ("x=1\n".toList) [],
      Token.mk LineType.regular [] ("a: 1\n".toList) []]
     ("- ".toList) ("  ".toList) 1 (by decide)⟩

/-- Helper: processing a concatenation of token lists threads the single
namespace left to right and concatenates the outputs. -/
theorem processTokens_append {Env : Type} (E : PyEngine Env) (xs ys : List Token) (env : Env) :
    processTokens E (xs ++ ys) env =
      ((processTokens E xs env).1 ++ (processTokens E ys (processTokens E xs env).2).1,
       (processTokens E ys (processTokens E xs env).2).2) := by
  induction xs generalizing env with
  | nil => simp [processTokens]
  | cons t xs ih => simp [processTokens, ih]

/-- C9: one namespace is threaded through the whole token sequence without
copying.  Includes splice their tokens into the surrounding list (see the
include branch of `parseStream`), so for a parent split around an included
expansion the namespace handed to the tokens after the include is exactly
the namespace produced by the included tokens — a name defined by an exec
block inside the include is visible to every later evaluation. -/
theorem C9_shared_env {Env : Type} (E : PyEngine Env) (front inc back : List Token)
    (env : Env) :
    processTokens E (front ++ inc ++ back) env =
      ((processTokens E front env).1 ++
         ((processTokens E inc (processTokens E front env).2).1 ++
           (processTokens E back
             (processTokens E inc (processTokens E front env).2).2).1),
       (processTokens E back (processTokens E inc (processTokens E front env).2).2).2) := by
  rw [processTokens_append E (front ++ inc) back env, processTokens_append E front inc env]
  simp [List.append_assoc]

/-! Lemmas about the whitespace collapse of `_pyaml`, leading to C10. -/

/-- Helper: when the whitespace prefix holds no newline at all, it holds none
in particular. -/
theorem lastNlPos_none_noNl : ∀ (l : List Char), lastNlPos l = none → noNlWsPre l = true := by
  intro l
  induction l with
  | nil => intro _; rfl
  | cons c r ih =>
    intro h
    rw [lastNlPos] at h
    cases hps : pySpace c with
    | false => simp [noNlWsPre, hps]
    | true =>
      rw [hps] at h
      simp only [if_true] at h
      cases hm : lastNlPos r with
      | some j => rw [hm] at h; cases h
      | none =>
        rw [hm] at h
        by_cases hnl : c = '\n'
        · rw [if_pos hnl] at h; cases h
        · simp [noNlWsPre, hps, hnl, ih hm]

/-- Helper: a newline-free whitespace prefix admits no `\s+\n` match at the
front. -/
theorem noNl_not_startsWsNl : ∀ (l : List Char), noNlWsPre l = true → startsWsNl l = false := by
  intro l
  induction l with
  | nil => intro _; rfl
  | cons c r ih =>
    intro h
    cases hps : pySpace c with
    | false => simp [startsWsNl, hps]
    | true =>
      rw [noNlWsPre, hps] at h
      simp only [if_true, Bool.and_eq_true, bne_iff_ne] at h
      rcases h with ⟨hnl, hpre⟩
      have hr := ih hpre
      have hd : (r.head? == some '\n') = false := by
        cases r with
        | nil => rfl
        | cons d r2 =>
          by_cases hdn : d = '\n'
          · subst hdn
            rw [noNlWsPre] at hpre
            simp [pySpace] at hpre
          · simp [hdn]
      simp [startsWsNl, hps, hr, hd]

/-- Helper: a newline-free whitespace prefix does not start with a newline. -/
theorem noNl_head : ∀ (l : List Char), noNlWsPre l = true → (l.head? == some '\n') = false := by
  intro l h
  cases l with
  | nil => rfl
  | cons c r =>
    by_cases hc : c = '\n'
    · subst hc
      rw [noNlWsPre] at h
      simp [pySpace] at h
    · simp [hc]

/-- Helper: after the greedy match ends at the last newline of the
whitespace run, the remaining whitespace prefix holds no newline. -/
theorem lastNlPos_some_drop : ∀ (l : List Char) (j : Nat), lastNlPos l = some j →
    noNlWsPre (l.drop (j + 1)) = true := by
  intro l
  induction l with
  | nil => intro j h; cases h
  | cons c r ih =>
    intro j h
    rw [lastNlPos] at h
    cases hps : pySpace c with
    | false => rw [hps] at h; simp at h
    | true =>
      rw [hps] at h
      simp only [if_true] at h
      cases hm : lastNlPos r with
      | some j2 =>
        rw [hm] at h
        have hj : j = j2 + 1 := by cases h; rfl
        subst hj
        simpa [List.drop_succ_cons] using ih j2 hm
      | none =>
        rw [hm] at h
        by_cases hnl : c = '\n'
        · rw [if_pos hnl] at h
          have hj : j = 0 := by cases h; rfl
          subst hj
          simpa using lastNlPos_none_noNl r hm
        · rw [if_neg hnl] at h; cases h

/-- Helper: when no `\n\s+\n` match starts here, no `\s+\n` follows a leading
position either. -/
theorem matchLen_none_not_starts (l : List Char) (h : matchLen l = none) :
    startsWsNl l = false := by
  rw [matchLen] at h
  cases hm : lastNlPos l with
  | none => exact noNl_not_startsWsNl l (lastNlPos_none_noNl l hm)
  | some j =>
    rw [hm] at h
    cases j with
    | succ j2 => cases h
    | zero =>
      cases l with
      | nil => cases hm
      | cons c r =>
        rw [lastNlPos] at hm
        cases hps : pySpace c with
        | false => rw [hps] at hm; simp at hm
        | true =>
          rw [hps] at hm
          simp only [if_true] at hm
          cases hm2 : lastNlPos r with
          | some j3 => rw [hm2] at hm; cases hm
          | none =>
            have hpre := lastNlPos_none_noNl r hm2
            simp [startsWsNl, noNl_head r hpre, noNl_not_startsWsNl r hpre]

/-- Helper: the text after a consumed greedy match has a newline-free
whitespace prefix. -/
theorem matchLen_some_drop (l : List Char) (k : Nat) (h : matchLen l = some k) :
    noNlWsPre (l.drop k) = true := by
  rw [matchLen] at h
  cases hm : lastNlPos l with
  | none => rw [hm] at h; cases h
  | some j =>
    rw [hm] at h
    cases j with
    | zero => cases h
    | succ j2 =>
      have hk : k = j2 + 2 := by cases h; rfl
      subst hk
      simpa using lastNlPos_some_drop l (j2 + 1) hm

/-- Helper: the collapse keeps the first character. -/
theorem collapseAux_head : ∀ (n : Nat) (l : List Char),
    (collapseBlankAux n l).head? = l.head? := by
  intro n l
  cases n with
  | zero => rfl
  | succ m =>
    cases l with
    | nil => rfl
    | cons c rest =>
      by_cases hc : c = '\n'
      · subst hc
        cases hm : matchLen rest <;> simp [collapseBlankAux, hm]
      · simp [collapseBlankAux, hc]

/-- Helper: a `\s+\n` match at the front of the collapsed text reflects to
one at the front of the original text. -/
theorem collapseAux_startsWsNl : ∀ (n : Nat) (l : List Char),
    startsWsNl (collapseBlankAux n l) = true → startsWsNl l = true := by
  intro n
  induction n with
  | zero => intro l h; simpa [collapseBlankAux] using h
  | succ m ih =>
    intro l h
    cases l with
    | nil => simpa [collapseBlankAux] using h
    | cons c rest =>
      by_cases hc : c = '\n'
      · subst hc
        cases hm : matchLen rest with
        | some k =>
          rw [show collapseBlankAux (m + 1) ('\n' :: rest) =
                '\n' :: collapseBlankAux m (rest.drop k) from by
              simp [collapseBlankAux, hm]] at h
          have hpre := matchLen_some_drop rest k hm
          have h1 : ((collapseBlankAux m (rest.drop k)).head? == some '\n') = false := by
            rw [collapseAux_head]
            exact noNl_head _ hpre
          have h2 : startsWsNl (collapseBlankAux m (rest.drop k)) = false := by
            cases hs : startsWsNl (collapseBlankAux m (rest.drop k)) with
            | false => rfl
            | true =>
              have h3 := ih _ hs
              rw [noNl_not_startsWsNl _ hpre] at h3
              cases h3
          rw [startsWsNl, h1, h2] at h
          simp at h
        | none =>
          rw [show collapseBlankAux (m + 1) ('\n' :: rest) =
                '\n' :: collapseBlankAux m rest from by
              simp [collapseBlankAux, hm]] at h
          rw [startsWsNl, collapseAux_head] at h
          rw [startsWsNl]
          cases hd : (rest.head? == some '\n') with
          | true => simp [hd, pySpace]
          | false =>
            rw [hd] at h
            simp only [Bool.false_or, Bool.and_eq_true] at h
            simp [hd, ih rest h.2, pySpace]
      · rw [show collapseBlankAux (m + 1) (c :: rest) =
              c :: collapseBlankAux m rest from by
            simp [collapseBlankAux, hc]] at h
        rw [startsWsNl, collapseAux_head] at h
        rw [startsWsNl]
        cases hd : (rest.head? == some '\n') with
        | true =>
          rw [hd] at h
          simp only [Bool.true_or, Bool.and_eq_true] at h
          simp [hd, h]
        | false =>
          rw [hd] at h
          simp only [Bool.false_or, Bool.and_eq_true] at h
          simp [hd, ih rest h.2, h.1]

/-- Helper: the collapsed text never starts a `\s+\n` run when the source of
the recursion forbids it. -/
theorem collapseAux_not_starts (m : Nat) (l : List Char) (h : noNlWsPre l = true) :
    startsWsNl (collapseBlankAux m l) = false := by
  cases hs : startsWsNl (collapseBlankAux m l) with
  | false => rfl
  | true =>
    have h1 := collapseAux_startsWsNl m l hs
    rw [noNl_not_startsWsNl l h] at h1
    cases h1

/-- Helper: same, from the absence of a match. -/
theorem collapseAux_not_starts2 (m : Nat) (l : List Char) (h : matchLen l = none) :
    startsWsNl (collapseBlankAux m l) = false := by
  cases hs : startsWsNl (collapseBlankAux m l) with
  | false => rfl
  | true =>
    have h1 := collapseAux_startsWsNl m l hs
    rw [matchLen_none_not_starts l h] at h1
    cases h1

/-- Helper: with enough budget the collapsed text holds no occurrence of a
newline, a nonempty whitespace run and a newline. -/
theorem collapseAux_noBlank : ∀ (n : Nat) (l : List Char), l.length ≤ n →
    hasBlank (collapseBlankAux n l) = false := by
  intro n
  induction n with
  | zero =>
    intro l h
    have hl : l = [] := List.eq_nil_of_length_eq_zero (Nat.le_zero.mp h)
    subst hl
    rfl
  | succ m ih =>
    intro l h
    cases l with
    | nil => rfl
    | cons c rest =>
      have hlen : rest.length ≤ m := by simpa using h
      by_cases hc : c = '\n'
      · subst hc
        cases hm : matchLen rest with
        | some k =>
          have hlen2 : (rest.drop k).length ≤ m :=
            le_trans (by simp) hlen
          rw [show collapseBlankAux (m + 1) ('\n' :: rest) =
                '\n' :: collapseBlankAux m (rest.drop k) from by
              simp [collapseBlankAux, hm]]
          rw [hasBlank]
          simp [collapseAux_not_starts m _ (matchLen_some_drop rest k hm), ih _ hlen2]
        | none =>
          rw [show collapseBlankAux (m + 1) ('\n' :: rest) =
                '\n' :: collapseBlankAux m rest from by
              simp [collapseBlankAux, hm]]
          rw [hasBlank]
          simp [collapseAux_not_starts2 m rest hm, ih rest hlen]
      · rw [show collapseBlankAux (m + 1) (c :: rest) =
              c :: collapseBlankAux m rest from by
            simp [collapseBlankAux, hc]]
        rw [hasBlank]
        simp [hc, ih rest hlen]

/-- Helper: the collapse of `_pyaml` leaves no interior whitespace-only
line — no newline, nonempty whitespace run, newline pattern. -/
theorem collapse_noBlank (l : List Char) : hasBlank (collapseBlank l) = false :=
  collapseAux_noBlank l.length l le_rfl

/-! Lemmas extracting the shape of a matched include line, leading to C7. -/

/-- Helper: a successful tag match peels the tag off the front. -/
theorem dropTag_eq : ∀ (t l r : List Char), dropTag t l = some r → l = t ++ r := by
  intro t
  induction t with
  | nil =>
    intro l r h
    simp [dropTag] at h
    simp [h]
  | cons c cs ih =>
    intro l r h
    cases l with
    | nil => simp [dropTag] at h
    | cons a as =>
      by_cases hac : a = c
      · subst hac
        rw [show dropTag (a :: cs) (a :: as) = dropTag cs as from by simp [dropTag]] at h
        simp [ih as r h]
      · simp [dropTag, hac] at h

/-- Helper: a successful greedy scan splits the line into the captured
leading text and a remainder accepted by the sub-matcher. -/
theorem scanLongest_eq {α : Type} (m : List Char → Option α) :
    ∀ (l p : List Char) (a : α), scanLongest m l = some (p, a) →
      ∃ r, l = p ++ r ∧ m r = some a := by
  intro l
  induction l with
  | nil =>
    intro p a h
    rw [scanLongest] at h
    cases hm : m [] with
    | none => rw [hm] at h; cases h
    | some b =>
      rw [hm] at h
      simp only [Option.map_some', Option.some.injEq, Prod.mk.injEq] at h
      rcases h with ⟨h1, h2⟩
      subst h1
      subst h2
      exact ⟨[], rfl, hm⟩
  | cons c cs ih =>
    intro p a h
    rw [scanLongest] at h
    cases hs : scanLongest m cs with
    | some pa =>
      rcases pa with ⟨p2, a2⟩
      rw [hs] at h
      simp only [Option.some.injEq, Prod.mk.injEq] at h
      rcases h with ⟨h1, h2⟩
      subst h1
      subst h2
      rcases ih p2 a2 hs with ⟨r, hr1, hr2⟩
      exact ⟨r, by simp [hr1], hr2⟩
    | none =>
      rw [hs] at h
      cases hm : m (c :: cs) with
      | none => rw [hm] at h; cases h
      | some b =>
        rw [hm] at h
        simp only [Option.map_some', Option.some.injEq, Prod.mk.injEq] at h
        rcases h with ⟨h1, h2⟩
        subst h1
        subst h2
        exact ⟨c :: cs, rfl, hm⟩

/-- Helper: a successful lazy filename scan means the remainder is the
non-whitespace filename continuation, the closing marker and trailing
whitespace. -/
theorem inclFname_eq : ∀ (r acc F : List Char), inclFname acc r = some F →
    ∃ u trail, r = u ++ '@' :: '@' :: trail ∧ allSpace trail = true ∧
      F = acc.reverse ++ u ∧ u.all (fun x => !pySpace x) = true ∧ (acc = [] → u ≠ []) := by
  intro r
  induction r with
  | nil => intro acc F h; cases h
  | cons c cs ih =>
    intro acc F h
    have hext : pySpace c = false → inclFname (c :: acc) cs = some F →
        ∃ u trail, c :: cs = u ++ '@' :: '@' :: trail ∧ allSpace trail = true ∧
          F = acc.reverse ++ u ∧ u.all (fun x => !pySpace x) = true ∧ (acc = [] → u ≠ []) := by
      intro hws hrec
      rcases ih (c :: acc) F hrec with ⟨u2, trail, h1, h2, h3, h4, h5⟩
      refine ⟨c :: u2, trail, by simp [h1], h2, ?_, ?_, ?_⟩
      · simp [h3, List.reverse_cons]
      · simp [List.all_cons, hws, h4]
      · intro _
        simp
    cases acc with
    | nil =>
      have hred : inclFname [] (c :: cs) = if pySpace c then none else inclFname [c] cs := by
        cases hdt : dropTag ['@', '@'] (c :: cs) <;> simp [inclFname, hdt]
      rw [hred] at h
      by_cases hws : pySpace c = true
      · rw [if_pos hws] at h
        cases h
      · rw [if_neg hws] at h
        have hws2 : pySpace c = false := by simpa using hws
        exact hext hws2 h
    | cons a as =>
      cases hdt : dropTag ['@', '@'] (c :: cs) with
      | none =>
        have hred : inclFname (a :: as) (c :: cs) =
            if pySpace c then none else inclFname (c :: a :: as) cs := by
          simp [inclFname, hdt]
        rw [hred] at h
        by_cases hws : pySpace c = true
        · rw [if_pos hws] at h
          cases h
        · rw [if_neg hws] at h
          have hws2 : pySpace c = false := by simpa using hws
          exact hext hws2 h
      | some rest =>
        have hred : inclFname (a :: as) (c :: cs) =
            if allSpace rest then some ((a :: as).reverse)
            else if pySpace c then none else inclFname (c :: a :: as) cs := by
          simp [inclFname, hdt]
        rw [hred] at h
        by_cases hsp : allSpace rest = true
        · rw [if_pos hsp] at h
          have hF : F = (a :: as).reverse := by cases h; rfl
          subst hF
          have hr := dropTag_eq ['@', '@'] (c :: cs) rest hdt
          refine ⟨[], rest, by simpa using hr, hsp, by simp, rfl, ?_⟩
          intro hcon
          cases hcon
        · rw [if_neg hsp] at h
          by_cases hws : pySpace c = true
          · rw [if_pos hws] at h
            cases h
          · rw [if_neg hws] at h
            have hws2 : pySpace c = false := by simpa using hws
            exact hext hws2 h

/-- Helper: the whitespace taken by `takeWhile` is all whitespace. -/
theorem allSpace_takeWhile (l : List Char) : allSpace (l.takeWhile pySpace) = true := by
  rw [allSpace, List.all_eq_true]
  intro x hx
  exact List.mem_takeWhile_imp hx

/-- Helper: the part of the include tail after the word include — at least
one whitespace character, the filename, the closing marker and trailing
whitespace. -/
theorem inclTailRest_eq (r3 F : List Char)
    (h : (match r3 with
      | c :: cs => if pySpace c = true then inclFname [] (List.dropWhile pySpace cs) else none
      | [] => none) = some F) :
    ∃ w trail, r3 = w ++ F ++ '@' :: '@' :: trail ∧ w ≠ [] ∧ allSpace w = true ∧
      F ≠ [] ∧ F.all (fun x => !pySpace x) = true ∧ allSpace trail = true := by
  cases r3 with
  | nil => cases h
  | cons c3 cs3 =>
    have h2 : (if pySpace c3 = true then inclFname [] (cs3.dropWhile pySpace) else none) =
        some F := h
    by_cases hws3 : pySpace c3 = true
    · rw [if_pos hws3] at h2
      rcases inclFname_eq (cs3.dropWhile pySpace) [] F h2 with ⟨u, trail, hu1, hu2, hu3, hu4, hu5⟩
      have hFu : F = u := by simpa using hu3
      subst hFu
      refine ⟨c3 :: cs3.takeWhile pySpace, trail, ?_, by simp, ?_, hu5 rfl, hu4, hu2⟩
      · have hsplit : cs3.takeWhile pySpace ++ cs3.dropWhile pySpace = cs3 :=
          List.takeWhile_append_dropWhile pySpace cs3
        calc (c3 :: cs3 : List Char)
            = c3 :: (cs3.takeWhile pySpace ++ cs3.dropWhile pySpace) := by rw [hsplit]
          _ = (c3 :: cs3.takeWhile pySpace) ++ F ++ '@' :: '@' :: trail := by simp [hu1]
      · rw [allSpace, List.all_cons]
        have hts := allSpace_takeWhile cs3
        rw [allSpace] at hts
        simp [hws3, hts]
    · rw [if_neg hws3] at h2
      cases h2

/-- Helper: a line remainder accepted by the include tail matcher decomposes
as the open marker, at most one whitespace character, the word include, at
least one whitespace character, the nonempty whitespace-free filename, the
closing marker and trailing whitespace. -/
theorem inclTail_eq : ∀ (r F : List Char), inclTail r = some F →
    ∃ os w trail, r = '@' :: '@' :: (os ++ ('i' :: 'n' :: 'c' :: 'l' :: 'u' :: 'd' :: 'e' ::
        (w ++ F ++ '@' :: '@' :: trail))) ∧
      (os = [] ∨ ∃ cw, os = [cw] ∧ pySpace cw = true) ∧
      w ≠ [] ∧ allSpace w = true ∧
      F ≠ [] ∧ F.all (fun x => !pySpace x) = true ∧ allSpace trail = true := by
  intro r F h
  rw [inclTail] at h
  cases hdt : dropTag ['@', '@'] r with
  | none => rw [hdt] at h; cases h
  | some r1 =>
    rw [hdt] at h
    have hr : r = '@' :: '@' :: r1 := by simpa using dropTag_eq ['@', '@'] r r1 hdt
    simp only [Option.bind_eq_bind, Option.some_bind] at h
    rcases r1 with _ | ⟨c1, cs1⟩
    · have h2 : (dropTag ['i', 'n', 'c', 'l', 'u', 'd', 'e'] ([] : List Char)).bind (fun r3 =>
          match r3 with
          | c :: cs => if pySpace c = true then inclFname [] (List.dropWhile pySpace cs) else none
          | [] => none) = some F := h
      simp [dropTag] at h2
    · have h2 : (dropTag ['i', 'n', 'c', 'l', 'u', 'd', 'e']
          (if pySpace c1 = true then cs1 else c1 :: cs1)).bind (fun r3 =>
          match r3 with
          | c :: cs => if pySpace c = true then inclFname [] (List.dropWhile pySpace cs) else none
          | [] => none) = some F := h
      by_cases hws1 : pySpace c1 = true
      · rw [if_pos hws1] at h2
        cases hdt2 : dropTag ['i', 'n', 'c', 'l', 'u', 'd', 'e'] cs1 with
        | none => rw [hdt2] at h2; cases h2
        | some r3 =>
          rw [hdt2] at h2
          simp only [Option.some_bind] at h2
          rcases inclTailRest_eq r3 F h2 with ⟨w, trail, h3, h4, h5, h6, h7, h8⟩
          have hcs1 : cs1 = 'i' :: 'n' :: 'c' :: 'l' :: 'u' :: 'd' :: 'e' :: r3 := by
            simpa using dropTag_eq ['i', 'n', 'c', 'l', 'u', 'd', 'e'] cs1 r3 hdt2
          refine ⟨[c1], w, trail, ?_, Or.inr ⟨c1, rfl, hws1⟩, h4, h5, h6, h7, h8⟩
          rw [hr, hcs1, h3]
          simp
      · rw [if_neg hws1] at h2
        cases hdt2 : dropTag ['i', 'n', 'c', 'l', 'u', 'd', 'e'] (c1 :: cs1) with
        | none => rw [hdt2] at h2; cases h2
        | some r3 =>
          rw [hdt2] at h2
          simp only [Option.some_bind] at h2
          rcases inclTailRest_eq r3 F h2 with ⟨w, trail, h3, h4, h5, h6, h7, h8⟩
          have hcc : c1 :: cs1 = 'i' :: 'n' :: 'c' :: 'l' :: 'u' :: 'd' :: 'e' :: r3 := by
            simpa using dropTag_eq ['i', 'n', 'c', 'l', 'u', 'd', 'e'] (c1 :: cs1) r3 hdt2
          refine ⟨[], w, trail, ?_, Or.inl rfl, h4, h5, h6, h7, h8⟩
          rw [hr, hcc, h3]
          simp

/-- C7 (counterexample): a line of the required form without the close
marker — the include marker, whitespace and a filename ending the line — is
not an Include: `_re_include` demands the trailing close marker, so even with
the named file present the line is classified Regular and passed through. -/
theorem C7_cex :
    parseIncludeLine ("@@include foo.yaml".toList) = none ∧
    parseStream (fun _ => some ["x: 1".toList]) 2 ["@@include foo.yaml".toList] =
      Except.ok [Token.mk LineType.regular [] ("@@include foo.yaml\n".toList) []] := by
  exact ⟨by decide, by decide⟩

/-- C7 (amended): the close marker is required.  Every line the classifier
turns into an Include token decomposes as the captured leading text, the
include marker with at most one whitespace character before the word
include, at least one whitespace character, the nonempty whitespace-free
filename, the REQUIRED close marker, and trailing whitespace; a line ending
right after the filename is classified by later rules. -/
theorem C7_include_shape (l : Line) (p fname : List Char)
    (h : parseIncludeLine l = some (p, fname)) :
    ∃ os w trail, l = p ++ '@' :: '@' :: (os ++ ('i' :: 'n' :: 'c' :: 'l' :: 'u' :: 'd' :: 'e' ::
        (w ++ fname ++ '@' :: '@' :: trail))) ∧
      (os = [] ∨ ∃ cw, os = [cw] ∧ pySpace cw = true) ∧
      w ≠ [] ∧ allSpace w = true ∧
      fname ≠ [] ∧ fname.all (fun x => !pySpace x) = true ∧ allSpace trail = true := by
  rcases scanLongest_eq inclTail l p fname h with ⟨r, hr1, hr2⟩
  rcases inclTail_eq r fname hr2 with ⟨os, w, trail, h1, h2, h3, h4, h5, h6, h7⟩
  exact ⟨os, w, trail, by simp [hr1, h1], h2, h3, h4, h5, h6, h7⟩

/-- C7 (witness): the decomposition evaluated at a concrete include line. -/
theorem C7_include_shape_witness :
    parseIncludeLine ("a: @@include f@@".toList) = some ("a: ".toList, ['f']) ∧
    (∃ os w trail, "a: @@include f@@".toList =
        "a: ".toList ++ '@' :: '@' :: (os ++ ('i' :: 'n' :: 'c' :: 'l' :: 'u' :: 'd' :: 'e' ::
          (w ++ ['f'] ++ '@' :: '@' :: trail))) ∧
      (os = [] ∨ ∃ cw, os = [cw] ∧ pySpace cw = true) ∧
      w ≠ [] ∧ allSpace w = true ∧
      (['f'] : List Char) ≠ [] ∧ (['f'] : List Char).all (fun x => !pySpace x) = true ∧
      allSpace trail = true) :=
  ⟨by decide, C7_include_shape ("a: @@include f@@".toList) ("a: ".toList) ['f'] (by decide)⟩

/-- C10 (counterexample): a whitespace-only first line is not preceded by a
newline, so `re.sub(r"\n\s+\n", "\n", ...)` cannot touch it: the directive-free
input consisting of a whitespace-only line followed by a mapping is returned
byte-for-byte unchanged with a whitespace-only line surviving, against the
claim. -/
theorem C10_cex :
    pyamlString engId codecId fsEmpty 9 ("   \na: 1\n".toList) false () =
      ("   \na: 1\n".toList, none) ∧
    hasWsOnlyLine ("   \na: 1\n".toList) = true := by
  exact ⟨by decide, by decide⟩

/-- C10 (amended): with validation skipped, the text returned by the entry
points never contains an interior whitespace-only nonempty line — every
occurrence of a newline, a nonempty whitespace run and a newline has been
collapsed to a single newline — though a whitespace-only line at the very
start of the text (not preceded by a newline) can survive. -/
theorem C10_no_interior_blank {Env Data : Type} (E : PyEngine Env) (C : Codec Data)
    (fs : List Char → Option (List Line)) (fuel : Nat) (input : List Char) (env : Env) :
    hasBlank (pyamlString E C fs fuel input false env).1 = false := by
  rw [pyamlString, pyamlRun]
  cases (pyamlProcess E fs fuel (splitNl input) env).2.1 with
  | none => simp [collapse_noBlank]
  | some e => simp [collapse_noBlank]

end Pyaml
